import Mathlib

/-!
Verification development for `prune_include.py`, a tool that empirically
detects redundant include directives: it comments out one candidate line at
a time, invokes an external build command, and keeps the mutation exactly
when the expected build artifact appears.

The shallow embedding below models:
  * a file on disk as a `List Line` where `Line := List Char`
    (the byte content of the file is the concatenation of its lines;
    each scanned line carries its trailing newline, exactly as Python's
    `fileinput` yields it);
  * the external builder as an oracle `List Line → Bool` (respectively
    `Project → Bool` at whole-project level): a successful build creates
    the artifact, a failed build leaves the artifact file as it was.
    Artifact presence is an explicit `Bool` in the state, so the program's
    own artifact deletions (`remove_artifact`) are modelled faithfully;
  * `sys.exit(1)` paths (`exit_error`) as explicit result constructors;
  * console output and file modification times are outside the model
    (the `touch` loop of `initialize` only defeats incremental-build
    caching, which the oracle abstraction already assumes away).

Each definition mirrors the correspondingly named Python function.
-/

namespace PruneIncl

/-- One line of a text file, as a list of characters. -/
abbrev Line : Type := List Char

/-- Python's `\s` character class restricted to ASCII: space, tab,
newline, carriage return, vertical tab, form feed. -/
def isPySpace (c : Char) : Bool :=
  c == ' ' || c == '\t' || c == '\n' || c == '\r' ||
    c == Char.ofNat 11 || c == Char.ofNat 12

/-- The matching test of `process_file` (line 149):
`re.match('^\\s*' + token + '\\s+', line)`, with the configured token read
as a literal string (the default token contains no regex metacharacter).
Regex backtracking semantics: the line matches iff for some split point
`i`, the first `i` characters are whitespace, the token follows, and at
least one whitespace character follows the token. -/
def scanMatch (token line : Line) : Bool :=
  (List.range (line.length + 1)).any (fun i =>
    (line.take i).all isPySpace && token.isPrefixOf (line.drop i) &&
      (match (line.drop (i + token.length)).head? with
       | some c => isPySpace c
       | none => false))

/-- Modelled from the spec's words (section 4.2), for comparison with
`scanMatch`: ignoring leading whitespace, the line begins with the token
immediately followed by at least one whitespace character. -/
def specMatchDirective (token line : Line) : Bool :=
  let rest := line.dropWhile isPySpace
  token.isPrefixOf rest &&
    (match (rest.drop token.length).head? with
     | some c => isPySpace c
     | none => false)

/-- The scanning loop of `process_file` (lines 145-152): walk the file,
tracking `fileinput.filelineno()` in `cur`, and collect the 1-based line
numbers and verbatim text of every matching line, top to bottom.
The pair list fuses the source's `include_lines` list with its
`backup_lines` dictionary. -/
def scanGo (token : Line) : Nat → List Line → List (Nat × Line)
  | _, [] => []
  | cur, l :: ls =>
    if scanMatch token l then (cur, l) :: scanGo token (cur + 1) ls
    else scanGo token (cur + 1) ls

/-- Candidate scan of a whole file: line numbering starts at 1. -/
def scanCandidates (token : Line) (file : List Line) : List (Nat × Line) :=
  scanGo token 1 file

/-- The rewriting loop of `inplace_insert` (lines 96-103): copy every
line, printing `replaceLine` instead of the original exactly when the
running `fileinput.filelineno()` counter equals `lineNumber`. -/
def inplaceGo (lineNumber : Nat) (replaceLine : Line) :
    Nat → List Line → List Line
  | _, [] => []
  | cur, l :: ls =>
    (if cur = lineNumber then replaceLine else l) ::
      inplaceGo lineNumber replaceLine (cur + 1) ls

/-- `inplace_insert(file, line_number, replace_line)`: in-place replace
one line of the file (1-based numbering). -/
def inplaceInsert (file : List Line) (lineNumber : Nat)
    (replaceLine : Line) : List Line :=
  inplaceGo lineNumber replaceLine 1 file

/-- State of the world while one file is processed: that file's content
plus whether the build artifact currently exists on disk. -/
structure FSt where
  file : List Line
  artifact : Bool
deriving DecidableEq

/-- `remove_artifact` (lines 87-93): delete the artifact file; a missing
artifact is not an error. -/
def removeArtifact (s : FSt) : FSt := { s with artifact := false }

/-- `build_project` (lines 82-84) together with the environment model of
the builder: a successful build creates the artifact, a failed build
leaves the artifact file untouched. The exit status is ignored, exactly
as in the source (`check=False`, nothing inspected). -/
def buildProject (oracle : List Line → Bool) (s : FSt) : FSt :=
  { s with artifact := s.artifact || oracle s.file }

/-- Outcome of one `prune_include` trial: the mutation was kept
(`committed`, Python returns `True`), the mutation was rolled back
(`reverted`, Python returns `False`), or the rolled-back build failed to
restore the artifact and `exit_error` terminated the process (`fatal`). -/
inductive TrialOutcome where
  | committed
  | reverted
  | fatal
deriving DecidableEq

/-- `prune_include(file, line_number, backup_line, args)` (lines 106-129):
delete the artifact, comment out the target line, build; if the artifact
exists the mutation is committed, otherwise the line is restored and the
build re-run; if even that build leaves no artifact, `exit_error`
aborts the process (modelled by the `fatal` outcome, whose diagnostic
message in the source names the file and the line number). -/
def pruneInclude (oracle : List Line → Bool) (comment : Line)
    (lineNumber : Nat) (backupLine : Line) (s : FSt) : TrialOutcome × FSt :=
  let s1 := removeArtifact s
  let s2 : FSt :=
    { s1 with file := inplaceInsert s1.file lineNumber (comment ++ backupLine) }
  let s3 := buildProject oracle s2
  if s3.artifact then (TrialOutcome.committed, s3)
  else
    let s4 : FSt := { s3 with file := inplaceInsert s3.file lineNumber backupLine }
    let s5 := buildProject oracle s4
    if s5.artifact then (TrialOutcome.reverted, s5)
    else (TrialOutcome.fatal, s5)

/-- Result of one pass over a file (`process_file`): `done wasChanged` is
a normal return, `aborted ln` records that `prune_include` called
`exit_error` while trialling line `ln`. -/
inductive PassResult where
  | done (wasChanged : Bool)
  | aborted (ln : Nat)
deriving DecidableEq

/-- Trace of the trials a run performed, in order: the line number of
each `prune_include` call with its outcome. -/
abbrev TrialLog := List (Nat × TrialOutcome)

/-- The trial loop of `process_file` (lines 156-158): feed each candidate
to `prune_include`, or-accumulating `was_changed`; a fatal trial stops
the whole process at once. -/
def runTrials (oracle : List Line → Bool) (comment : Line) :
    List (Nat × Line) → Bool → FSt → PassResult × FSt × TrialLog
  | [], wasChanged, s => (PassResult.done wasChanged, s, [])
  | (ln, bk) :: rest, wasChanged, s =>
    match pruneInclude oracle comment ln bk s with
    | (TrialOutcome.committed, s1) =>
      let r := runTrials oracle comment rest (wasChanged || true) s1
      (r.1, r.2.1, (ln, TrialOutcome.committed) :: r.2.2)
    | (TrialOutcome.reverted, s1) =>
      let r := runTrials oracle comment rest (wasChanged || false) s1
      (r.1, r.2.1, (ln, TrialOutcome.reverted) :: r.2.2)
    | (TrialOutcome.fatal, s1) =>
      (PassResult.aborted ln, s1, [(ln, TrialOutcome.fatal)])

/-- `process_file(file, is_reversed, args)` (lines 132-160): scan the
file for candidates, reverse the list when `isReversed`, and trial each
candidate in order. -/
def processFile (oracle : List Line → Bool) (comment token : Line)
    (isReversed : Bool) (s : FSt) : PassResult × FSt × TrialLog :=
  let includeLines := scanCandidates token s.file
  let ordered := if isReversed then includeLines.reverse else includeLines
  runTrials oracle comment ordered false s

/-- Result of processing one file end to end. -/
inductive RunResult where
  | finished
  | aborted (ln : Nat)
deriving DecidableEq

/-- The per-file body of `main` (lines 206-208): a reversed pass first,
then a forward pass exactly when the reversed pass changed something
(the forward pass's own `was_changed` is discarded, as in the source). -/
def driverFile (oracle : List Line → Bool) (comment token : Line)
    (s : FSt) : RunResult × FSt × TrialLog :=
  match processFile oracle comment token true s with
  | (PassResult.aborted ln, s1, log1) => (RunResult.aborted ln, s1, log1)
  | (PassResult.done wasChanged, s1, log1) =>
    if wasChanged then
      match processFile oracle comment token false s1 with
      | (PassResult.aborted ln, s2, log2) =>
        (RunResult.aborted ln, s2, log1 ++ log2)
      | (PassResult.done _, s2, log2) =>
        (RunResult.finished, s2, log1 ++ log2)
    else (RunResult.finished, s1, log1)

/-- A project: the contents of the discovered source files, in discovery
order. A file's identity is its index in this list. -/
abbrev Project : Type := List (List Line)

/-- Whole-project state: all file contents plus artifact presence. -/
structure PSt where
  files : Project
  artifact : Bool
deriving DecidableEq

/-- The builder seen from inside the processing of file `fi`: building
with that file's content set to `f` while every other file keeps its
current content. `prune_include` only ever rewrites the file it was given,
so during `process_file(fi)` the rest of the project is constant. -/
def oracleFor (oracleP : Project → Bool) (files : Project) (fi : Nat) :
    List Line → Bool :=
  fun f => oracleP (files.set fi f)

/-- Final status of a whole run of `main`: normal `sys.exit(0)`, or one
of the `exit_error` paths (no matching files, baseline build failure,
revert-verification failure at file `fi` line `ln`). -/
inductive MainResult where
  | success
  | noFiles
  | baselineFail
  | aborted (fi ln : Nat)
deriving DecidableEq

/-- Project-level trial trace: file index, line number, outcome. -/
abbrev RunLog := List (Nat × Nat × TrialOutcome)

/-- The file loop of `main` (lines 205-208), processing the files at the
given indices in order. -/
def processAll (oracleP : Project → Bool) (comment token : Line) :
    List Nat → PSt → MainResult × PSt × RunLog
  | [], s => (MainResult.success, s, [])
  | fi :: rest, s =>
    match driverFile (oracleFor oracleP s.files fi) comment token
        ⟨s.files.getD fi [], s.artifact⟩ with
    | (RunResult.aborted ln, s1, log) =>
      (MainResult.aborted fi ln, ⟨s.files.set fi s1.file, s1.artifact⟩,
        log.map (fun e => (fi, e)))
    | (RunResult.finished, s1, log) =>
      let r := processAll oracleP comment token rest
        ⟨s.files.set fi s1.file, s1.artifact⟩
      (r.1, r.2.1, log.map (fun e => (fi, e)) ++ r.2.2)

/-- `initialize(file_list, args)` (lines 163-184): delete the artifact,
touch every source file (modification times are outside the model), run
one build, and report whether the artifact now exists. -/
def setupBaseline (oracleP : Project → Bool) (s : PSt) : Bool × PSt :=
  let s1 : PSt := { s with artifact := false }
  let s2 : PSt := { s1 with artifact := s1.artifact || oracleP s1.files }
  (s2.artifact, s2)

/-- `main()` (lines 192-213): fail if no files were found, establish the
baseline (aborting via `exit_error` when the artifact is absent), then
process every file in order. -/
def mainRun (oracleP : Project → Bool) (comment token : Line) (s : PSt) :
    MainResult × PSt × RunLog :=
  if s.files.isEmpty then (MainResult.noFiles, s, [])
  else
    let r := setupBaseline oracleP s
    if r.1 then
      processAll oracleP comment token (List.range r.2.files.length) r.2
    else (MainResult.baselineFail, r.2, [])

/-! ### Concrete instances used to exercise the theorems -/

/-- A seven-line file whose lines 3 and 7 are directive lines for the
one-character token `#` (the other lines are inert). -/
def exF : List Line :=
  [['x'], ['x'], ['#', ' ', 'a'], ['x'], ['x'], ['x'], ['#', ' ', 'b']]

/-- A builder for `exF` that succeeds on the original file and with
either directive removed alone, but fails with both removed. -/
def exOracle : List Line → Bool := fun f =>
  decide (f = exF ∨
    f = inplaceInsert exF 3 (['/', '/'] ++ ['#', ' ', 'a']) ∨
    f = inplaceInsert exF 7 (['/', '/'] ++ ['#', ' ', 'b']))

/-- A three-line project file with directive lines A, B, C (lines 1-3). -/
def c9F0 : List Line := [['#', ' ', 'a'], ['#', ' ', 'b'], ['#', ' ', 'c']]

/-- `c9F0` with line B commented out. -/
def c9FB : List Line := [['#', ' ', 'a'], ['/', '/', '#', ' ', 'b'], ['#', ' ', 'c']]

/-- `c9F0` with lines B and C commented out. -/
def c9FBC : List Line :=
  [['#', ' ', 'a'], ['/', '/', '#', ' ', 'b'], ['/', '/', '#', ' ', 'c']]

/-- `c9F0` with all three lines commented out. -/
def c9FABC : List Line :=
  [['/', '/', '#', ' ', 'a'], ['/', '/', '#', ' ', 'b'], ['/', '/', '#', ' ', 'c']]

/-- A builder that succeeds exactly on the original project, on
`{B removed}`, on `{B, C removed}` and on `{A, B, C removed}` — a
perfectly deterministic function of the current file contents, with the
order-dependent removability the spec itself discusses. -/
def c9Oracle : Project → Bool := fun P =>
  decide (P = [c9F0] ∨ P = [c9FB] ∨ P = [c9FBC] ∨ P = [c9FABC])

/-- First full pipeline run on the `c9` project. -/
def c9Run1 : MainResult × PSt × RunLog :=
  mainRun c9Oracle ['/', '/'] ['#'] ⟨[c9F0], false⟩

/-- Second full pipeline run, started from the state the first run left. -/
def c9Run2 : MainResult × PSt × RunLog :=
  mainRun c9Oracle ['/', '/'] ['#'] c9Run1.2.1

/-! ### Lemmas about `inplaceInsert` -/

lemma inplaceGo_getElem? (ln : Nat) (r : Line) :
    ∀ (ls : List Line) (cur i : Nat),
      (inplaceGo ln r cur ls)[i]? =
        if cur + i = ln then (ls[i]?).map (fun _ => r) else ls[i]?
  | [], cur, i => by simp [inplaceGo]
  | l :: ls, cur, 0 => by
    by_cases h : cur = ln <;> simp [inplaceGo, h]
  | l :: ls, cur, i + 1 => by
    have h := inplaceGo_getElem? ln r ls (cur + 1) i
    have e : cur + 1 + i = cur + (i + 1) := by omega
    simp only [inplaceGo, List.getElem?_cons_succ]
    rw [h, e]

lemma length_inplaceGo (ln : Nat) (r : Line) :
    ∀ (ls : List Line) (cur : Nat), (inplaceGo ln r cur ls).length = ls.length
  | [], _ => rfl
  | l :: ls, cur => by
    simp [inplaceGo, length_inplaceGo ln r ls (cur + 1)]

lemma inplaceInsert_getElem? (f : List Line) (ln : Nat) (r : Line) (i : Nat) :
    (inplaceInsert f ln r)[i]? =
      if i + 1 = ln then (f[i]?).map (fun _ => r) else f[i]? := by
  unfold inplaceInsert
  rw [inplaceGo_getElem?, Nat.add_comm 1 i]

lemma length_inplaceInsert (f : List Line) (ln : Nat) (r : Line) :
    (inplaceInsert f ln r).length = f.length :=
  length_inplaceGo ln r f 1

lemma inplaceInsert_getElem?_ne (f : List Line) (ln : Nat) (r : Line) (i : Nat)
    (h : i + 1 ≠ ln) : (inplaceInsert f ln r)[i]? = f[i]? := by
  rw [inplaceInsert_getElem?, if_neg h]

lemma inplaceInsert_getElem?_self (f : List Line) (ln : Nat) (r : Line) (i : Nat)
    (h : i + 1 = ln) (hi : i < f.length) :
    (inplaceInsert f ln r)[i]? = some r := by
  rw [inplaceInsert_getElem?, if_pos h, List.getElem?_eq_getElem hi]
  rfl

lemma inplaceInsert_eq_self_of_out (f : List Line) (ln : Nat) (r : Line)
    (h : ln = 0 ∨ f.length < ln) : inplaceInsert f ln r = f := by
  apply List.ext_getElem?
  intro i
  rw [inplaceInsert_getElem?]
  by_cases hi : i + 1 = ln
  · have hlen : f.length ≤ i := by omega
    rw [List.getElem?_eq_none hlen]
    simp [hi]
  · rw [if_neg hi]

lemma inplaceInsert_inplaceInsert (f : List Line) (ln : Nat) (r r' : Line) :
    inplaceInsert (inplaceInsert f ln r) ln r' = inplaceInsert f ln r' := by
  apply List.ext_getElem?
  intro i
  rw [inplaceInsert_getElem?, inplaceInsert_getElem?, inplaceInsert_getElem?]
  by_cases h : i + 1 = ln
  · rw [if_pos h, if_pos h, if_pos h]
    cases f[i]? <;> rfl
  · rw [if_neg h, if_neg h, if_neg h]

lemma inplaceInsert_restore (f : List Line) (ln : Nat) (bk : Line)
    (h : f[ln - 1]? = some bk) : inplaceInsert f ln bk = f := by
  apply List.ext_getElem?
  intro i
  rw [inplaceInsert_getElem?]
  by_cases hi : i + 1 = ln
  · have e : i = ln - 1 := by omega
    rw [if_pos hi, e, h]
    rfl
  · rw [if_neg hi]

/-! ### Lemmas about the candidate scan -/

lemma scanGo_mem (token : Line) :
    ∀ (ls : List Line) (cur : Nat) (p : Nat × Line),
      p ∈ scanGo token cur ls ↔
        cur ≤ p.1 ∧ ls[p.1 - cur]? = some p.2 ∧ scanMatch token p.2 = true := by
  intro ls
  induction ls with
  | nil => intro cur p; simp [scanGo]
  | cons l ls ih =>
    rintro cur ⟨n, t⟩
    rw [scanGo]
    by_cases h : scanMatch token l
    · rw [if_pos h, List.mem_cons, ih]
      constructor
      · rintro (he | ⟨h1, h2, h3⟩)
        · obtain ⟨rfl, rfl⟩ : n = cur ∧ t = l := by
            constructor <;> injection he <;> simp_all
          exact ⟨Nat.le_refl _, by simp, h⟩
        · refine ⟨by omega, ?_, h3⟩
          have e : n - cur = (n - (cur + 1)) + 1 := by omega
          simpa [e] using h2
      · rintro ⟨h1, h2, h3⟩
        rcases Nat.eq_or_lt_of_le h1 with he | hlt
        · left
          have e : n - cur = 0 := by omega
          rw [e, List.getElem?_cons_zero] at h2
          obtain rfl : l = t := by injection h2
          have hcn : cur = n := he
          subst hcn
          rfl
        · right
          refine ⟨by omega, ?_, h3⟩
          have e : n - cur = (n - (cur + 1)) + 1 := by omega
          rw [e, List.getElem?_cons_succ] at h2
          exact h2
    · rw [if_neg h, ih]
      constructor
      · rintro ⟨h1, h2, h3⟩
        refine ⟨by omega, ?_, h3⟩
        have e : n - cur = (n - (cur + 1)) + 1 := by omega
        simpa [e] using h2
      · rintro ⟨h1, h2, h3⟩
        rcases Nat.eq_or_lt_of_le h1 with he | hlt
        · exfalso
          have e : n - cur = 0 := by omega
          rw [e, List.getElem?_cons_zero] at h2
          obtain rfl : l = t := by injection h2
          rw [h3] at h
          exact h rfl
        · refine ⟨by omega, ?_, h3⟩
          have e : n - cur = (n - (cur + 1)) + 1 := by omega
          rw [e, List.getElem?_cons_succ] at h2
          exact h2

lemma scanCandidates_mem (token : Line) (f : List Line) (p : Nat × Line) :
    p ∈ scanCandidates token f ↔
      1 ≤ p.1 ∧ f[p.1 - 1]? = some p.2 ∧ scanMatch token p.2 = true :=
  scanGo_mem token f 1 p

lemma scanGo_ge (token : Line) (ls : List Line) (cur : Nat) (p : Nat × Line)
    (hp : p ∈ scanGo token cur ls) : cur ≤ p.1 :=
  ((scanGo_mem token ls cur p).mp hp).1

lemma scanGo_pairwise (token : Line) :
    ∀ (ls : List Line) (cur : Nat),
      (scanGo token cur ls).Pairwise (fun a b => a.1 < b.1)
  | [], cur => by simp [scanGo]
  | l :: ls, cur => by
    rw [scanGo]
    by_cases h : scanMatch token l
    · rw [if_pos h]
      refine List.Pairwise.cons ?_ (scanGo_pairwise token ls (cur + 1))
      intro b hb
      have := scanGo_ge token ls (cur + 1) b hb
      omega
    · rw [if_neg h]
      exact scanGo_pairwise token ls (cur + 1)

lemma scanCandidates_pairwise (token : Line) (f : List Line) :
    (scanCandidates token f).Pairwise (fun a b => a.1 < b.1) :=
  scanGo_pairwise token f 1

lemma scanGo_inplaceGo (token r : Line) (ln : Nat)
    (hcm : scanMatch token r = false) :
    ∀ (ls : List Line) (cur : Nat),
      scanGo token cur (inplaceGo ln r cur ls) =
        (scanGo token cur ls).filter (fun p => decide (p.1 ≠ ln))
  | [], cur => by simp [scanGo, inplaceGo]
  | l :: ls, cur => by
    by_cases h : cur = ln
    · have ih := scanGo_inplaceGo token r ln hcm ls (cur + 1)
      subst h
      by_cases hl : scanMatch token l <;>
        simp [inplaceGo, scanGo, hcm, hl, ih, List.filter_cons]
    · have ih := scanGo_inplaceGo token r ln hcm ls (cur + 1)
      by_cases hl : scanMatch token l <;>
        simp [inplaceGo, scanGo, h, hcm, hl, ih, List.filter_cons]

lemma scanCandidates_inplaceInsert (token r : Line) (ln : Nat) (f : List Line)
    (hcm : scanMatch token r = false) :
    scanCandidates token (inplaceInsert f ln r) =
      (scanCandidates token f).filter (fun p => decide (p.1 ≠ ln)) :=
  scanGo_inplaceGo token r ln hcm f 1

/-! ### The backtracking regex match agrees with the spec's description -/

lemma takeWhile_all (p : Char → Bool) :
    ∀ l : List Char, (l.takeWhile p).all p = true := by
  intro l
  induction l with
  | nil => rfl
  | cons a l ih =>
    by_cases h : p a <;> simp [List.takeWhile_cons, h, ih]

lemma length_takeWhile_le (p : Char → Bool) :
    ∀ l : List Char, (l.takeWhile p).length ≤ l.length := by
  intro l
  induction l with
  | nil => exact Nat.le_refl 0
  | cons a l ih =>
    by_cases h : p a <;> simp [List.takeWhile_cons, h] <;> omega

lemma take_length_takeWhile (p : Char → Bool) :
    ∀ l : List Char, l.take (l.takeWhile p).length = l.takeWhile p := by
  intro l
  induction l with
  | nil => rfl
  | cons a l ih =>
    by_cases h : p a <;> simp [List.takeWhile_cons, h, ih]

lemma drop_length_takeWhile (p : Char → Bool) :
    ∀ l : List Char, l.drop (l.takeWhile p).length = l.dropWhile p := by
  intro l
  induction l with
  | nil => rfl
  | cons a l ih =>
    by_cases h : p a <;>
      simp [List.takeWhile_cons, List.dropWhile_cons, h, ih]

lemma dropWhile_eq_drop (p : Char → Bool) :
    ∀ (i : Nat) (l : List Char) (c : Char),
      (l.take i).all p = true → (l.drop i).head? = some c → p c = false →
      l.dropWhile p = l.drop i
  | 0, l, c, _, hh, hc => by
    cases l with
    | nil => simp at hh
    | cons a l =>
      rw [List.drop_zero] at hh ⊢
      rw [List.head?_cons] at hh
      obtain rfl : a = c := by injection hh
      simp [List.dropWhile_cons, hc]
  | i + 1, l, c, ha, hh, hc => by
    cases l with
    | nil => simp at hh
    | cons a l =>
      rw [List.take_succ_cons, List.all_cons, Bool.and_eq_true] at ha
      rw [List.drop_succ_cons] at hh
      rw [List.drop_succ_cons, List.dropWhile_cons, if_pos ha.1]
      exact dropWhile_eq_drop p i l c ha.2 hh hc

/-- For a directive token that is nonempty and does not start with a
whitespace character, the backtracking regex semantics of
`re.match('^\\s*' + token + '\\s+', line)` coincides with the spec's
reading: strip all leading whitespace, then the token must follow,
immediately followed by at least one whitespace character. -/
lemma scanMatch_eq_spec (token line : Line)
    (h : isPySpace (token.headD ' ') = false) :
    scanMatch token line = specMatchDirective token line := by
  obtain ⟨t, ts, rfl⟩ : ∃ t ts, token = t :: ts := by
    cases token with
    | nil => exact absurd h (by simp [isPySpace])
    | cons t ts => exact ⟨t, ts, rfl⟩
  rw [List.headD_cons] at h
  rw [Bool.eq_iff_iff]
  constructor
  · intro hm
    rw [scanMatch, List.any_eq_true] at hm
    obtain ⟨i, _, hi⟩ := hm
    rw [Bool.and_eq_true, Bool.and_eq_true] at hi
    obtain ⟨⟨hall, hpre⟩, hnext⟩ := hi
    obtain ⟨c, hc, hcs⟩ : ∃ c, (line.drop (i + (t :: ts).length)).head? = some c ∧
        isPySpace c = true := by
      cases hh : (line.drop (i + (t :: ts).length)).head? with
      | none => rw [hh] at hnext; exact absurd hnext (by simp)
      | some c => rw [hh] at hnext; exact ⟨c, rfl, hnext⟩
    obtain ⟨u, hu⟩ : (t :: ts) <+: line.drop i :=
      List.isPrefixOf_iff_prefix.mp hpre
    have hhead : (line.drop i).head? = some t := by
      rw [← hu]; rfl
    have hdw : line.dropWhile isPySpace = line.drop i :=
      dropWhile_eq_drop isPySpace i line t hall hhead h
    rw [specMatchDirective]
    simp only [hdw]
    rw [Bool.and_eq_true]
    refine ⟨hpre, ?_⟩
    rw [List.drop_drop, hc]
    exact hcs
  · intro hm
    rw [specMatchDirective] at hm
    simp only [Bool.and_eq_true] at hm
    obtain ⟨hpre, hnext⟩ := hm
    rw [scanMatch, List.any_eq_true]
    refine ⟨(line.takeWhile isPySpace).length, ?_, ?_⟩
    · rw [List.mem_range]
      have := length_takeWhile_le isPySpace line
      omega
    · rw [Bool.and_eq_true, Bool.and_eq_true]
      refine ⟨⟨?_, ?_⟩, ?_⟩
      · rw [take_length_takeWhile]
        exact takeWhile_all isPySpace line
      · rw [drop_length_takeWhile]
        exact hpre
      · rw [← List.drop_drop, drop_length_takeWhile]
        exact hnext

/-! ### Lemmas about one `prune_include` trial -/

lemma pruneInclude_eq (oracle : List Line → Bool) (comment : Line)
    (ln : Nat) (bk : Line) (s : FSt) :
    pruneInclude oracle comment ln bk s =
      if oracle (inplaceInsert s.file ln (comment ++ bk)) then
        (TrialOutcome.committed, ⟨inplaceInsert s.file ln (comment ++ bk), true⟩)
      else if oracle (inplaceInsert (inplaceInsert s.file ln (comment ++ bk)) ln bk) then
        (TrialOutcome.reverted,
          ⟨inplaceInsert (inplaceInsert s.file ln (comment ++ bk)) ln bk, true⟩)
      else
        (TrialOutcome.fatal,
          ⟨inplaceInsert (inplaceInsert s.file ln (comment ++ bk)) ln bk, false⟩) := by
  unfold pruneInclude removeArtifact buildProject
  by_cases h1 : oracle (inplaceInsert s.file ln (comment ++ bk)) <;>
    by_cases h2 : oracle (inplaceInsert (inplaceInsert s.file ln (comment ++ bk)) ln bk) <;>
      simp [h1, h2]

lemma pruneInclude_committed_iff (oracle : List Line → Bool) (comment : Line)
    (ln : Nat) (bk : Line) (s : FSt) :
    (pruneInclude oracle comment ln bk s).1 = TrialOutcome.committed ↔
      oracle (inplaceInsert s.file ln (comment ++ bk)) = true := by
  rw [pruneInclude_eq]
  by_cases h1 : oracle (inplaceInsert s.file ln (comment ++ bk)) <;>
    by_cases h2 : oracle (inplaceInsert (inplaceInsert s.file ln (comment ++ bk)) ln bk) <;>
      simp [h1, h2]

lemma pruneInclude_fatal_iff (oracle : List Line → Bool) (comment : Line)
    (ln : Nat) (bk : Line) (s : FSt) :
    (pruneInclude oracle comment ln bk s).1 = TrialOutcome.fatal ↔
      (oracle (inplaceInsert s.file ln (comment ++ bk)) = false ∧
        oracle (inplaceInsert (inplaceInsert s.file ln (comment ++ bk)) ln bk) = false) := by
  rw [pruneInclude_eq]
  by_cases h1 : oracle (inplaceInsert s.file ln (comment ++ bk)) <;>
    by_cases h2 : oracle (inplaceInsert (inplaceInsert s.file ln (comment ++ bk)) ln bk) <;>
      simp [h1, h2]

lemma pruneInclude_committed_state (oracle : List Line → Bool) (comment : Line)
    (ln : Nat) (bk : Line) (s : FSt)
    (h : (pruneInclude oracle comment ln bk s).1 = TrialOutcome.committed) :
    (pruneInclude oracle comment ln bk s).2 =
      ⟨inplaceInsert s.file ln (comment ++ bk), true⟩ := by
  rw [pruneInclude_eq] at h ⊢
  by_cases h1 : oracle (inplaceInsert s.file ln (comment ++ bk)) <;>
    by_cases h2 : oracle (inplaceInsert (inplaceInsert s.file ln (comment ++ bk)) ln bk) <;>
      simp_all

lemma pruneInclude_not_committed_file (oracle : List Line → Bool) (comment : Line)
    (ln : Nat) (bk : Line) (s : FSt)
    (h : (pruneInclude oracle comment ln bk s).1 ≠ TrialOutcome.committed) :
    (pruneInclude oracle comment ln bk s).2.file = inplaceInsert s.file ln bk := by
  rw [pruneInclude_eq] at h ⊢
  by_cases h1 : oracle (inplaceInsert s.file ln (comment ++ bk)) <;>
    by_cases h2 : oracle (inplaceInsert (inplaceInsert s.file ln (comment ++ bk)) ln bk) <;>
      simp_all [inplaceInsert_inplaceInsert]

lemma pruneInclude_restore (oracle : List Line → Bool) (comment : Line)
    (ln : Nat) (bk : Line) (s : FSt)
    (hv : s.file[ln - 1]? = some bk)
    (h : (pruneInclude oracle comment ln bk s).1 ≠ TrialOutcome.committed) :
    (pruneInclude oracle comment ln bk s).2.file = s.file := by
  rw [pruneInclude_not_committed_file oracle comment ln bk s h]
  exact inplaceInsert_restore s.file ln bk hv

lemma pruneInclude_getElem?_ne (oracle : List Line → Bool) (comment : Line)
    (ln : Nat) (bk : Line) (s : FSt) (i : Nat) (hi : i + 1 ≠ ln) :
    (pruneInclude oracle comment ln bk s).2.file[i]? = s.file[i]? := by
  rw [pruneInclude_eq]
  by_cases h1 : oracle (inplaceInsert s.file ln (comment ++ bk)) <;>
    by_cases h2 : oracle (inplaceInsert (inplaceInsert s.file ln (comment ++ bk)) ln bk) <;>
      simp [h1, h2, inplaceInsert_getElem?_ne _ _ _ _ hi]

lemma pruneInclude_length (oracle : List Line → Bool) (comment : Line)
    (ln : Nat) (bk : Line) (s : FSt) :
    (pruneInclude oracle comment ln bk s).2.file.length = s.file.length := by
  rw [pruneInclude_eq]
  by_cases h1 : oracle (inplaceInsert s.file ln (comment ++ bk)) <;>
    by_cases h2 : oracle (inplaceInsert (inplaceInsert s.file ln (comment ++ bk)) ln bk) <;>
      simp [h1, h2, length_inplaceInsert]

/-! ### Lemmas about the trial loop -/

lemma runTrials_nil {oracle : List Line → Bool} {comment : Line}
    {wc : Bool} {s : FSt} :
    runTrials oracle comment [] wc s = (PassResult.done wc, s, []) := rfl

lemma runTrials_cons_committed {oracle : List Line → Bool} {comment : Line}
    {ln : Nat} {bk : Line} {s s1 : FSt} {rest : List (Nat × Line)} {wc : Bool}
    (hp : pruneInclude oracle comment ln bk s = (TrialOutcome.committed, s1)) :
    runTrials oracle comment ((ln, bk) :: rest) wc s =
      ((runTrials oracle comment rest (wc || true) s1).1,
       (runTrials oracle comment rest (wc || true) s1).2.1,
       (ln, TrialOutcome.committed) ::
         (runTrials oracle comment rest (wc || true) s1).2.2) := by
  rw [runTrials, hp]

lemma runTrials_cons_reverted {oracle : List Line → Bool} {comment : Line}
    {ln : Nat} {bk : Line} {s s1 : FSt} {rest : List (Nat × Line)} {wc : Bool}
    (hp : pruneInclude oracle comment ln bk s = (TrialOutcome.reverted, s1)) :
    runTrials oracle comment ((ln, bk) :: rest) wc s =
      ((runTrials oracle comment rest (wc || false) s1).1,
       (runTrials oracle comment rest (wc || false) s1).2.1,
       (ln, TrialOutcome.reverted) ::
         (runTrials oracle comment rest (wc || false) s1).2.2) := by
  rw [runTrials, hp]

lemma runTrials_cons_fatal {oracle : List Line → Bool} {comment : Line}
    {ln : Nat} {bk : Line} {s s1 : FSt} {rest : List (Nat × Line)} {wc : Bool}
    (hp : pruneInclude oracle comment ln bk s = (TrialOutcome.fatal, s1)) :
    runTrials oracle comment ((ln, bk) :: rest) wc s =
      (PassResult.aborted ln, s1, [(ln, TrialOutcome.fatal)]) := by
  rw [runTrials, hp]

lemma runTrials_done_log (oracle : List Line → Bool) (comment : Line) :
    ∀ (L : List (Nat × Line)) (wc : Bool) (s : FSt) (wc' : Bool) (s' : FSt)
      (log : TrialLog),
      runTrials oracle comment L wc s = (PassResult.done wc', s', log) →
      log.map Prod.fst = L.map Prod.fst := by
  intro L
  induction L with
  | nil =>
    intro wc s wc' s' log h
    rw [runTrials_nil] at h
    injection h with h1 h2
    injection h2 with h2 h3
    subst h3
    rfl
  | cons hd rest ih =>
    obtain ⟨ln, bk⟩ := hd
    intro wc s wc' s' log h
    rcases hp : pruneInclude oracle comment ln bk s with ⟨out, s1⟩
    cases out with
    | committed =>
      rw [runTrials_cons_committed hp] at h
      rcases hr : runTrials oracle comment rest (wc || true) s1 with ⟨r1, s2, log2⟩
      rw [hr] at h
      dsimp only at h
      injection h with h1 h2
      injection h2 with h2 h3
      subst h3
      rw [h1] at hr
      have := ih (wc || true) s1 wc' s2 log2 hr
      simp [this]
    | reverted =>
      rw [runTrials_cons_reverted hp] at h
      rcases hr : runTrials oracle comment rest (wc || false) s1 with ⟨r1, s2, log2⟩
      rw [hr] at h
      dsimp only at h
      injection h with h1 h2
      injection h2 with h2 h3
      subst h3
      rw [h1] at hr
      have := ih (wc || false) s1 wc' s2 log2 hr
      simp [this]
    | fatal =>
      rw [runTrials_cons_fatal hp] at h
      injection h with h1 h2
      exact absurd h1 (by simp)

lemma runTrials_aborted_log (oracle : List Line → Bool) (comment : Line) :
    ∀ (L : List (Nat × Line)) (wc : Bool) (s : FSt) (ln : Nat) (s' : FSt)
      (log : TrialLog),
      runTrials oracle comment L wc s = (PassResult.aborted ln, s', log) →
      ∃ L1 bk L2 pre,
        L = L1 ++ (ln, bk) :: L2 ∧
        log = pre ++ [(ln, TrialOutcome.fatal)] ∧
        pre.map Prod.fst = L1.map Prod.fst ∧
        ∀ e ∈ pre, e.2 ≠ TrialOutcome.fatal := by
  intro L
  induction L with
  | nil =>
    intro wc s ln s' log h
    rw [runTrials_nil] at h
    injection h with h1 h2
    exact absurd h1 (by simp)
  | cons hd rest ih =>
    obtain ⟨ln0, bk0⟩ := hd
    intro wc s ln s' log h
    rcases hp : pruneInclude oracle comment ln0 bk0 s with ⟨out, s1⟩
    cases out with
    | committed =>
      rw [runTrials_cons_committed hp] at h
      rcases hr : runTrials oracle comment rest (wc || true) s1 with ⟨r1, s2, log2⟩
      rw [hr] at h
      dsimp only at h
      injection h with h1 h2
      injection h2 with h2 h3
      subst h3
      rw [h1] at hr
      obtain ⟨L1, bk, L2, pre, he1, he2, he3, he4⟩ :=
        ih (wc || true) s1 ln s2 log2 hr
      refine ⟨(ln0, bk0) :: L1, bk, L2, (ln0, TrialOutcome.committed) :: pre,
        by rw [he1]; rfl, by rw [he2]; rfl, by simp [he3], ?_⟩
      intro e he
      rcases List.mem_cons.mp he with rfl | hm
      · simp
      · exact he4 e hm
    | reverted =>
      rw [runTrials_cons_reverted hp] at h
      rcases hr : runTrials oracle comment rest (wc || false) s1 with ⟨r1, s2, log2⟩
      rw [hr] at h
      dsimp only at h
      injection h with h1 h2
      injection h2 with h2 h3
      subst h3
      rw [h1] at hr
      obtain ⟨L1, bk, L2, pre, he1, he2, he3, he4⟩ :=
        ih (wc || false) s1 ln s2 log2 hr
      refine ⟨(ln0, bk0) :: L1, bk, L2, (ln0, TrialOutcome.reverted) :: pre,
        by rw [he1]; rfl, by rw [he2]; rfl, by simp [he3], ?_⟩
      intro e he
      rcases List.mem_cons.mp he with rfl | hm
      · simp
      · exact he4 e hm
    | fatal =>
      rw [runTrials_cons_fatal hp] at h
      injection h with h1 h2
      injection h2 with h2 h3
      obtain rfl : ln0 = ln := by injection h1
      exact ⟨[], bk0, rest, [], rfl, h3.symm, rfl, by simp⟩

lemma runTrials_log_fst_sub (oracle : List Line → Bool) (comment : Line) :
    ∀ (L : List (Nat × Line)) (wc : Bool) (s : FSt) (e : Nat × TrialOutcome),
      e ∈ (runTrials oracle comment L wc s).2.2 → e.1 ∈ L.map Prod.fst := by
  intro L
  induction L with
  | nil =>
    intro wc s e he
    rw [runTrials_nil] at he
    simp at he
  | cons hd rest ih =>
    obtain ⟨ln0, bk0⟩ := hd
    intro wc s e he
    rcases hp : pruneInclude oracle comment ln0 bk0 s with ⟨out, s1⟩
    cases out with
    | committed =>
      rw [runTrials_cons_committed hp] at he
      rcases List.mem_cons.mp he with rfl | hm
      · simp
      · exact List.mem_cons.mpr (Or.inr (ih (wc || true) s1 e hm))
    | reverted =>
      rw [runTrials_cons_reverted hp] at he
      rcases List.mem_cons.mp he with rfl | hm
      · simp
      · exact List.mem_cons.mpr (Or.inr (ih (wc || false) s1 e hm))
    | fatal =>
      rw [runTrials_cons_fatal hp] at he
      rcases List.mem_cons.mp he with rfl | hm
      · simp
      · simp at hm

lemma runTrials_getElem?_ne (oracle : List Line → Bool) (comment : Line) :
    ∀ (L : List (Nat × Line)) (wc : Bool) (s : FSt) (i : Nat),
      (∀ q ∈ L, q.1 ≠ i + 1) →
      (runTrials oracle comment L wc s).2.1.file[i]? = s.file[i]? := by
  intro L
  induction L with
  | nil => intro wc s i _; rw [runTrials_nil]
  | cons hd rest ih =>
    obtain ⟨ln0, bk0⟩ := hd
    intro wc s i hq
    have hne : i + 1 ≠ ln0 := by
      have := hq (ln0, bk0) (List.mem_cons_self _ _)
      simp at this
      omega
    rcases hp : pruneInclude oracle comment ln0 bk0 s with ⟨out, s1⟩
    have hs1 : s1.file[i]? = s.file[i]? := by
      have := pruneInclude_getElem?_ne oracle comment ln0 bk0 s i hne
      rw [hp] at this
      exact this
    cases out with
    | committed =>
      rw [runTrials_cons_committed hp]
      rw [ih (wc || true) s1 i (fun q hq' => hq q (List.mem_cons.mpr (Or.inr hq')))]
      exact hs1
    | reverted =>
      rw [runTrials_cons_reverted hp]
      rw [ih (wc || false) s1 i (fun q hq' => hq q (List.mem_cons.mpr (Or.inr hq')))]
      exact hs1
    | fatal =>
      rw [runTrials_cons_fatal hp]
      exact hs1

lemma runTrials_done_wasChanged (oracle : List Line → Bool) (comment : Line) :
    ∀ (L : List (Nat × Line)) (wc : Bool) (s : FSt) (wc' : Bool) (s' : FSt)
      (log : TrialLog),
      runTrials oracle comment L wc s = (PassResult.done wc', s', log) →
      wc' = (wc || log.any (fun e => decide (e.2 = TrialOutcome.committed))) := by
  intro L
  induction L with
  | nil =>
    intro wc s wc' s' log h
    rw [runTrials_nil] at h
    injection h with h1 h2
    injection h2 with h2 h3
    obtain rfl : wc = wc' := by injection h1
    rw [← h3]
    simp
  | cons hd rest ih =>
    obtain ⟨ln0, bk0⟩ := hd
    intro wc s wc' s' log h
    rcases hp : pruneInclude oracle comment ln0 bk0 s with ⟨out, s1⟩
    cases out with
    | committed =>
      rw [runTrials_cons_committed hp] at h
      rcases hr : runTrials oracle comment rest (wc || true) s1 with ⟨r1, s2, log2⟩
      rw [hr] at h
      dsimp only at h
      injection h with h1 h2
      injection h2 with h2 h3
      subst h3
      rw [h1] at hr
      have := ih (wc || true) s1 wc' s2 log2 hr
      simp only [this, List.any_cons]
      simp [Bool.or_assoc, Bool.or_comm]
    | reverted =>
      rw [runTrials_cons_reverted hp] at h
      rcases hr : runTrials oracle comment rest (wc || false) s1 with ⟨r1, s2, log2⟩
      rw [hr] at h
      dsimp only at h
      injection h with h1 h2
      injection h2 with h2 h3
      subst h3
      rw [h1] at hr
      have := ih (wc || false) s1 wc' s2 log2 hr
      simp only [this, List.any_cons]
      simp
    | fatal =>
      rw [runTrials_cons_fatal hp] at h
      injection h with h1 h2
      exact absurd h1 (by simp)

/-- If a full pass finishes normally and its log records no commit, then
the file was restored after every trial, and the accumulated
`was_changed` flag is unchanged. -/
lemma runTrials_no_commit (oracle : List Line → Bool) (comment : Line) :
    ∀ (L : List (Nat × Line)) (wc : Bool) (s : FSt),
      (∀ q ∈ L, s.file[q.1 - 1]? = some q.2) →
      ∀ (wc' : Bool) (s' : FSt) (log : TrialLog),
        runTrials oracle comment L wc s = (PassResult.done wc', s', log) →
        (∀ e ∈ log, e.2 ≠ TrialOutcome.committed) →
        s'.file = s.file ∧ wc' = wc := by
  intro L
  induction L with
  | nil =>
    intro wc s _ wc' s' log h _
    rw [runTrials_nil] at h
    injection h with h1 h2
    injection h2 with h2 h3
    obtain rfl : wc = wc' := by injection h1
    rw [← h2]
    exact ⟨rfl, rfl⟩
  | cons hd rest ih =>
    obtain ⟨ln0, bk0⟩ := hd
    intro wc s hval wc' s' log h hnc
    rcases hp : pruneInclude oracle comment ln0 bk0 s with ⟨out, s1⟩
    cases out with
    | committed =>
      rw [runTrials_cons_committed hp] at h
      exfalso
      rcases hr : runTrials oracle comment rest (wc || true) s1 with ⟨r1, s2, log2⟩
      rw [hr] at h
      dsimp only at h
      injection h with h1 h2
      injection h2 with h2 h3
      exact hnc (ln0, TrialOutcome.committed)
        (by rw [← h3]; exact List.mem_cons_self _ _) rfl
    | reverted =>
      rw [runTrials_cons_reverted hp] at h
      rcases hr : runTrials oracle comment rest (wc || false) s1 with ⟨r1, s2, log2⟩
      rw [hr] at h
      dsimp only at h
      injection h with h1 h2
      injection h2 with h2 h3
      subst h3
      rw [h1] at hr
      have hs1 : s1.file = s.file := by
        have hnc1 : (pruneInclude oracle comment ln0 bk0 s).1 ≠
            TrialOutcome.committed := by
          rw [hp]
          simp
        have := pruneInclude_restore oracle comment ln0 bk0 s
          (hval (ln0, bk0) (List.mem_cons_self _ _)) hnc1
        rw [hp] at this
        exact this
      have hval1 : ∀ q ∈ rest, s1.file[q.1 - 1]? = some q.2 := by
        intro q hq
        rw [hs1]
        exact hval q (List.mem_cons.mpr (Or.inr hq))
      have hnc2 : ∀ e ∈ log2, e.2 ≠ TrialOutcome.committed :=
        fun e he => hnc e (List.mem_cons.mpr (Or.inr he))
      obtain ⟨hfile, hwc⟩ := ih (wc || false) s1 hval1 wc' s2 log2 hr hnc2
      constructor
      · rw [← h2, hfile, hs1]
      · rw [hwc]
        simp
    | fatal =>
      rw [runTrials_cons_fatal hp] at h
      injection h with h1 h2
      exact absurd h1 (by simp)

/-- If a pass's log records a commit of line `ln`, then in the final file
that line holds the comment prefix followed by its scanned backup text
(later trials of the pass target other lines and leave it alone). -/
lemma runTrials_committed_line (oracle : List Line → Bool) (comment : Line) :
    ∀ (L : List (Nat × Line)) (wc : Bool) (s : FSt),
      (∀ q ∈ L, 1 ≤ q.1 ∧ s.file[q.1 - 1]? = some q.2) →
      L.Pairwise (fun a b => a.1 ≠ b.1) →
      ∀ ln, (ln, TrialOutcome.committed) ∈ (runTrials oracle comment L wc s).2.2 →
      ∃ bk, (ln, bk) ∈ L ∧
        (runTrials oracle comment L wc s).2.1.file[ln - 1]? = some (comment ++ bk) := by
  intro L
  induction L with
  | nil =>
    intro wc s _ _ ln hmem
    rw [runTrials_nil] at hmem
    simp at hmem
  | cons hd rest ih =>
    obtain ⟨ln0, bk0⟩ := hd
    intro wc s hval hpw ln hmem
    obtain ⟨hval0, hvalrest⟩ :
        (1 ≤ ln0 ∧ s.file[ln0 - 1]? = some bk0) ∧
          ∀ q ∈ rest, 1 ≤ q.1 ∧ s.file[q.1 - 1]? = some q.2 := by
      refine ⟨hval (ln0, bk0) (List.mem_cons_self _ _), ?_⟩
      intro q hq
      exact hval q (List.mem_cons.mpr (Or.inr hq))
    obtain ⟨hpwhd, hpw1⟩ := List.pairwise_cons.mp hpw
    rcases hp : pruneInclude oracle comment ln0 bk0 s with ⟨out, s1⟩
    have hs1ne : ∀ j : Nat, j + 1 ≠ ln0 → s1.file[j]? = s.file[j]? := by
      intro j hj
      have := pruneInclude_getElem?_ne oracle comment ln0 bk0 s j hj
      rw [hp] at this
      exact this
    have hval1 : ∀ q ∈ rest, 1 ≤ q.1 ∧ s1.file[q.1 - 1]? = some q.2 := by
      intro q hq
      obtain ⟨hq1, hq2⟩ := hvalrest q hq
      refine ⟨hq1, ?_⟩
      rw [hs1ne (q.1 - 1) (by have := hpwhd q hq; omega)]
      exact hq2
    cases out with
    | committed =>
      rw [runTrials_cons_committed hp] at hmem ⊢
      rcases List.mem_cons.mp hmem with heq | hm
      · obtain ⟨rfl, -⟩ : ln = ln0 ∧ True := by
          refine ⟨?_, trivial⟩
          injection heq with e1 e2
        refine ⟨bk0, List.mem_cons_self _ _, ?_⟩
        have hs1c : s1 = ⟨inplaceInsert s.file ln (comment ++ bk0), true⟩ := by
          have hc : (pruneInclude oracle comment ln bk0 s).1 =
              TrialOutcome.committed := by rw [hp]
          have := pruneInclude_committed_state oracle comment ln bk0 s hc
          rw [hp] at this
          exact this
        have hself : s1.file[ln - 1]? = some (comment ++ bk0) := by
          rw [hs1c]
          refine inplaceInsert_getElem?_self _ _ _ _ (by omega) ?_
          have := (List.getElem?_eq_some.mp hval0.2).1
          omega
        rw [runTrials_getElem?_ne oracle comment rest (wc || true) s1 (ln - 1)
          (by intro q hq; have := hpwhd q hq; omega)]
        exact hself
      · obtain ⟨bk, hbk, hfin⟩ := ih (wc || true) s1 hval1 hpw1 ln hm
        exact ⟨bk, List.mem_cons.mpr (Or.inr hbk), hfin⟩
    | reverted =>
      rw [runTrials_cons_reverted hp] at hmem ⊢
      rcases List.mem_cons.mp hmem with heq | hm
      · exfalso
        injection heq with e1 e2
        exact absurd e2 (by simp)
      · obtain ⟨bk, hbk, hfin⟩ := ih (wc || false) s1 hval1 hpw1 ln hm
        exact ⟨bk, List.mem_cons.mpr (Or.inr hbk), hfin⟩
    | fatal =>
      rw [runTrials_cons_fatal hp] at hmem
      simp at hmem

/-! ### Lemmas about a whole pass -/

lemma orderedCandidates_valid (token : Line) (f : List Line) (rev : Bool) :
    ∀ q ∈ (if rev then (scanCandidates token f).reverse else scanCandidates token f),
      1 ≤ q.1 ∧ f[q.1 - 1]? = some q.2 := by
  intro q hq
  have hm : q ∈ scanCandidates token f := by
    cases rev with
    | true => exact List.mem_reverse.mp (by simpa using hq)
    | false => simpa using hq
  obtain ⟨h1, h2, -⟩ := (scanCandidates_mem token f q).mp hm
  exact ⟨h1, h2⟩

lemma orderedCandidates_pairwise (token : Line) (f : List Line) (rev : Bool) :
    (if rev then (scanCandidates token f).reverse else scanCandidates token f).Pairwise
      (fun a b => a.1 ≠ b.1) := by
  have hlt := scanCandidates_pairwise token f
  cases rev with
  | true =>
    simp only [if_pos]
    rw [List.pairwise_reverse]
    exact hlt.imp (fun h => (Nat.ne_of_lt h).symm)
  | false =>
    simpa using hlt.imp (fun h => Nat.ne_of_lt h)

/-! ### Claim theorems -/

/-- Claim C10: `inplace_insert` is total over line numbers. For a line
number outside `1..length` it rewrites the file with every line unchanged
(the loop's counter never equals the target, and no error is possible);
for an in-range line number it changes only that line and preserves the
line count. -/
theorem inplaceInsert_total (f : List Line) (ln : Nat) (r : Line) :
    ((ln = 0 ∨ f.length < ln) → inplaceInsert f ln r = f) ∧
    (1 ≤ ln → ln ≤ f.length →
      (inplaceInsert f ln r).length = f.length ∧
      (inplaceInsert f ln r)[ln - 1]? = some r ∧
      ∀ i : Nat, i ≠ ln - 1 → (inplaceInsert f ln r)[i]? = f[i]?) := by
  refine ⟨fun h => inplaceInsert_eq_self_of_out f ln r h,
    fun h1 h2 => ⟨length_inplaceInsert f ln r, ?_, ?_⟩⟩
  · exact inplaceInsert_getElem?_self f ln r (ln - 1) (by omega) (by omega)
  · intro i hi
    exact inplaceInsert_getElem?_ne f ln r i (by omega)

theorem inplaceInsert_total_witness :
    ((3 = 0 ∨ ([['a'], ['b']] : List Line).length < 3) ∧
      inplaceInsert [['a'], ['b']] 3 ['c'] = [['a'], ['b']]) ∧
    ((1 ≤ 1 ∧ 1 ≤ ([['a'], ['b']] : List Line).length) ∧
      (inplaceInsert [['a'], ['b']] 1 ['c']).length = ([['a'], ['b']] : List Line).length ∧
      (inplaceInsert [['a'], ['b']] 1 ['c'])[1 - 1]? = some ['c'] ∧
      ∀ i : Nat, i ≠ 1 - 1 →
        (inplaceInsert [['a'], ['b']] 1 ['c'])[i]? = [['a'], ['b']][i]?) :=
  ⟨⟨by decide, (inplaceInsert_total [['a'], ['b']] 3 ['c']).1 (by decide)⟩,
   ⟨⟨by decide, by decide⟩,
    (inplaceInsert_total [['a'], ['b']] 1 ['c']).2 (by decide) (by decide)⟩⟩

/-- Claim C3: rollback exactness. If the trial of a candidate is
reverted, the file content afterwards is identical to the content
immediately before the trial; the hypothesis `hv` states that the backup
text is the line's current content, which is how `process_file` always
calls `prune_include` (the backup was scanned from the file, and earlier
trials only rewrite their own lines). Byte content is the concatenation
of lines, so list equality gives byte equality. -/
theorem pruneInclude_rollback_exact (oracle : List Line → Bool)
    (comment : Line) (ln : Nat) (backup : Line) (s s' : FSt)
    (hv : s.file[ln - 1]? = some backup)
    (h : pruneInclude oracle comment ln backup s = (TrialOutcome.reverted, s')) :
    s'.file = s.file := by
  have hnc : (pruneInclude oracle comment ln backup s).1 ≠
      TrialOutcome.committed := by
    rw [h]
    simp
  have hr := pruneInclude_restore oracle comment ln backup s hv hnc
  rw [h] at hr
  exact hr

theorem pruneInclude_rollback_exact_witness :
    (([['#', ' ', 'a']] : List Line)[1 - 1]? = some ['#', ' ', 'a'] ∧
      pruneInclude (fun f => decide (f = [['#', ' ', 'a']])) ['/', '/'] 1
        ['#', ' ', 'a'] ⟨[['#', ' ', 'a']], false⟩ =
        (TrialOutcome.reverted, ⟨[['#', ' ', 'a']], true⟩)) ∧
    (FSt.mk [['#', ' ', 'a']] true).file = (FSt.mk [['#', ' ', 'a']] false).file :=
  ⟨⟨by decide, by decide⟩,
   pruneInclude_rollback_exact (fun f => decide (f = [['#', ' ', 'a']]))
     ['/', '/'] 1 ['#', ' ', 'a'] ⟨[['#', ' ', 'a']], false⟩
     ⟨[['#', ' ', 'a']], true⟩ (by decide) (by decide)⟩

/-- Claim C1: the Mutation Oracle rewrites exactly the target line to
`comment ++ original`, leaving every other line unchanged and preserving
the line count; it reports the candidate redundant (returns `True`,
modelled as `committed`) iff the artifact exists after the post-mutation
build; and on commit the mutated line remains in the file. The artifact
deletion before the build is captured by the last conjunct: the verdict
and final state are independent of whether a stale artifact existed
when the trial started. -/
theorem pruneInclude_mutation_oracle_spec (oracle : List Line → Bool)
    (comment : Line) (ln : Nat) (backup : Line) (s : FSt) :
    (inplaceInsert s.file ln (comment ++ backup)).length = s.file.length ∧
    (∀ i : Nat, i + 1 ≠ ln →
      (inplaceInsert s.file ln (comment ++ backup))[i]? = s.file[i]?) ∧
    (1 ≤ ln → ln ≤ s.file.length →
      (inplaceInsert s.file ln (comment ++ backup))[ln - 1]? =
        some (comment ++ backup)) ∧
    ((pruneInclude oracle comment ln backup s).1 = TrialOutcome.committed ↔
      oracle (inplaceInsert s.file ln (comment ++ backup)) = true) ∧
    ((pruneInclude oracle comment ln backup s).1 = TrialOutcome.committed →
      (pruneInclude oracle comment ln backup s).2 =
        ⟨inplaceInsert s.file ln (comment ++ backup), true⟩) ∧
    (∀ a : Bool, pruneInclude oracle comment ln backup ⟨s.file, a⟩ =
      pruneInclude oracle comment ln backup ⟨s.file, false⟩) := by
  refine ⟨length_inplaceInsert _ _ _,
    fun i hi => inplaceInsert_getElem?_ne _ _ _ _ hi,
    fun h1 h2 => inplaceInsert_getElem?_self _ _ _ _ (by omega) (by omega),
    pruneInclude_committed_iff oracle comment ln backup s,
    pruneInclude_committed_state oracle comment ln backup s,
    fun a => ?_⟩
  rw [pruneInclude_eq, pruneInclude_eq]

theorem pruneInclude_mutation_oracle_spec_witness :
    (1 ≤ 1 ∧ 1 ≤ ([['#', ' ', 'a']] : List Line).length) ∧
    ((pruneInclude (fun _ => true) ['/', '/'] 1 ['#', ' ', 'a']
        ⟨[['#', ' ', 'a']], false⟩).1 = TrialOutcome.committed ↔
      (fun _ => true) (inplaceInsert [['#', ' ', 'a']] 1
        (['/', '/'] ++ ['#', ' ', 'a'])) = true) ∧
    (inplaceInsert [['#', ' ', 'a']] 1 (['/', '/'] ++ ['#', ' ', 'a']))[1 - 1]? =
      some (['/', '/'] ++ ['#', ' ', 'a']) :=
  ⟨⟨by decide, by decide⟩,
   (pruneInclude_mutation_oracle_spec (fun _ => true) ['/', '/'] 1 ['#', ' ', 'a']
      ⟨[['#', ' ', 'a']], false⟩).2.2.2.1,
   (pruneInclude_mutation_oracle_spec (fun _ => true) ['/', '/'] 1 ['#', ' ', 'a']
      ⟨[['#', ' ', 'a']], false⟩).2.2.1 (by decide) (by decide)⟩

/-- Claim C2: the Candidate Scanner selects a line iff, ignoring leading
whitespace, the line begins with the token immediately followed by at
least one whitespace character, and the candidates come in ascending
(top-to-bottom) line order carrying their exact original text
(`file[p.1 - 1]? = some p.2`). The hypothesis restricts the configured
directive token to one that is nonempty and does not itself start with
whitespace (as any directive keyword is); without it, the backtracking
regex `\\s*token\\s+` could consume part of a whitespace-leading token
with its `\\s*` and the two readings would differ. -/
theorem scanCandidates_spec (token : Line) (file : List Line)
    (h : isPySpace (token.headD ' ') = false) :
    (∀ p : Nat × Line, p ∈ scanCandidates token file ↔
      (1 ≤ p.1 ∧ file[p.1 - 1]? = some p.2 ∧
        specMatchDirective token p.2 = true)) ∧
    (scanCandidates token file).Pairwise (fun a b => a.1 < b.1) := by
  constructor
  · intro p
    rw [scanCandidates_mem, scanMatch_eq_spec token p.2 h]
  · exact scanCandidates_pairwise token file

theorem scanCandidates_spec_witness :
    isPySpace ((['#'] : Line).headD ' ') = false ∧
    (((1 : Nat), (['#', ' ', 'a'] : Line)) ∈
        scanCandidates ['#'] [['#', ' ', 'a'], ['x', 'y']] ↔
      (1 ≤ (1 : Nat) ∧
        ([['#', ' ', 'a'], ['x', 'y']] : List Line)[1 - 1]? = some ['#', ' ', 'a'] ∧
        specMatchDirective ['#'] ['#', ' ', 'a'] = true)) :=
  ⟨by decide,
   (scanCandidates_spec ['#'] [['#', ' ', 'a'], ['x', 'y']] (by decide)).1
     (1, ['#', ' ', 'a'])⟩

/-- Claim C4: the scheduler's Pass 1 attempts the scanned candidates in
reverse (bottom-up) order — its trial log is exactly the reversed scan of
the file before the pass — and Pass 2 (a fresh top-down re-scan and
trial sequence over the then-current file) runs iff Pass 1 reported at
least one commit; with `wasChanged = false` the driver returns after
Pass 1 alone. -/
theorem driverFile_two_pass_schedule (oracle : List Line → Bool)
    (comment token : Line) (s : FSt) (wc : Bool) (s1 : FSt) (log1 : TrialLog)
    (h1 : processFile oracle comment token true s = (PassResult.done wc, s1, log1)) :
    log1.map Prod.fst = ((scanCandidates token s.file).reverse).map Prod.fst ∧
    wc = log1.any (fun e => decide (e.2 = TrialOutcome.committed)) ∧
    (wc = false → driverFile oracle comment token s = (RunResult.finished, s1, log1)) ∧
    (wc = true → ∀ (r2 : PassResult) (s2 : FSt) (log2 : TrialLog),
      processFile oracle comment token false s1 = (r2, s2, log2) →
      (∀ wc2 : Bool, r2 = PassResult.done wc2 →
        driverFile oracle comment token s = (RunResult.finished, s2, log1 ++ log2) ∧
        log2.map Prod.fst = (scanCandidates token s1.file).map Prod.fst) ∧
      (∀ ln : Nat, r2 = PassResult.aborted ln →
        driverFile oracle comment token s = (RunResult.aborted ln, s2, log1 ++ log2))) := by
  have h1r : runTrials oracle comment ((scanCandidates token s.file).reverse) false s =
      (PassResult.done wc, s1, log1) := h1
  refine ⟨runTrials_done_log oracle comment _ false s wc s1 log1 h1r, ?_, ?_, ?_⟩
  · have := runTrials_done_wasChanged oracle comment _ false s wc s1 log1 h1r
    simpa using this
  · intro hwc
    subst hwc
    unfold driverFile
    rw [h1]
    rfl
  · intro hwc r2 s2 log2 h2
    subst hwc
    constructor
    · rintro wc2 rfl
      have h2r : runTrials oracle comment (scanCandidates token s1.file) false s1 =
          (PassResult.done wc2, s2, log2) := h2
      refine ⟨?_, runTrials_done_log oracle comment _ false s1 wc2 s2 log2 h2r⟩
      unfold driverFile
      rw [h1]
      simp only [if_pos]
      rw [h2]
    · rintro ln rfl
      unfold driverFile
      rw [h1]
      simp only [if_pos]
      rw [h2]

theorem driverFile_two_pass_schedule_witness :
    processFile (fun _ => true) ['/', '/'] ['#'] true ⟨[['#', ' ', 'a']], false⟩ =
      (PassResult.done true, ⟨[['/', '/', '#', ' ', 'a']], true⟩,
        [(1, TrialOutcome.committed)]) ∧
    List.map Prod.fst [((1 : Nat), TrialOutcome.committed)] =
      ((scanCandidates ['#'] [['#', ' ', 'a']]).reverse).map Prod.fst :=
  ⟨by decide,
   (driverFile_two_pass_schedule (fun _ => true) ['/', '/'] ['#']
      ⟨[['#', ' ', 'a']], false⟩ true ⟨[['/', '/', '#', ' ', 'a']], true⟩
      [(1, TrialOutcome.committed)] (by decide)).1⟩

/-- Claim C7: a revert-verification failure is fatal and immediate. The
trial is fatal iff the build fails on the mutated file and again after
the line is restored; a pass that hits a fatal trial at line `ln` stops
there — its planned candidate list splits at `(ln, bk)` and its log ends
at the fatal entry, with no later candidate trialled — and the driver
propagates the abort (carrying the offending line number; the source's
`exit_error` message also names the file) without running anything
further. -/
theorem abort_on_revert_failure (oracle : List Line → Bool)
    (comment token : Line) :
    (∀ (ln : Nat) (bk : Line) (s : FSt),
      (pruneInclude oracle comment ln bk s).1 = TrialOutcome.fatal ↔
        (oracle (inplaceInsert s.file ln (comment ++ bk)) = false ∧
         oracle (inplaceInsert (inplaceInsert s.file ln (comment ++ bk)) ln bk) =
           false)) ∧
    (∀ (L : List (Nat × Line)) (wc : Bool) (s : FSt) (ln : Nat) (s' : FSt)
       (log : TrialLog),
      runTrials oracle comment L wc s = (PassResult.aborted ln, s', log) →
      ∃ L1 bk L2 pre,
        L = L1 ++ (ln, bk) :: L2 ∧
        log = pre ++ [(ln, TrialOutcome.fatal)] ∧
        pre.map Prod.fst = L1.map Prod.fst ∧
        ∀ e ∈ pre, e.2 ≠ TrialOutcome.fatal) ∧
    (∀ (s s1 : FSt) (ln : Nat) (log1 : TrialLog),
      processFile oracle comment token true s = (PassResult.aborted ln, s1, log1) →
      driverFile oracle comment token s = (RunResult.aborted ln, s1, log1)) ∧
    (∀ (s s1 s2 : FSt) (ln : Nat) (log1 log2 : TrialLog),
      processFile oracle comment token true s = (PassResult.done true, s1, log1) →
      processFile oracle comment token false s1 = (PassResult.aborted ln, s2, log2) →
      driverFile oracle comment token s = (RunResult.aborted ln, s2, log1 ++ log2)) := by
  refine ⟨fun ln bk s => pruneInclude_fatal_iff oracle comment ln bk s,
    fun L wc s ln s' log h => runTrials_aborted_log oracle comment L wc s ln s' log h,
    ?_, ?_⟩
  · intro s s1 ln log1 h1
    unfold driverFile
    rw [h1]
  · intro s s1 s2 ln log1 log2 h1 h2
    unfold driverFile
    rw [h1]
    simp only [if_pos]
    rw [h2]

theorem abort_on_revert_failure_witness :
    processFile (fun _ => false) ['/', '/'] ['#'] true ⟨[['#', ' ', 'a']], false⟩ =
      (PassResult.aborted 1, ⟨[['#', ' ', 'a']], false⟩, [(1, TrialOutcome.fatal)]) ∧
    driverFile (fun _ => false) ['/', '/'] ['#'] ⟨[['#', ' ', 'a']], false⟩ =
      (RunResult.aborted 1, ⟨[['#', ' ', 'a']], false⟩, [(1, TrialOutcome.fatal)]) :=
  ⟨by decide,
   (abort_on_revert_failure (fun _ => false) ['/', '/'] ['#']).2.2.1
     ⟨[['#', ' ', 'a']], false⟩ ⟨[['#', ' ', 'a']], false⟩ 1
     [(1, TrialOutcome.fatal)] (by decide)⟩

/-- A commented-out line never matches the directive pattern, provided
the token and the comment prefix start with distinct non-whitespace
characters (true of the defaults `#include` and `// `). -/
lemma scanMatch_comment_append (token comment l : Line)
    (htok : isPySpace (token.headD ' ') = false)
    (hcw : isPySpace (comment.headD ' ') = false)
    (hne : token.headD ' ' ≠ comment.headD ' ') :
    scanMatch token (comment ++ l) = false := by
  obtain ⟨t, ts, rfl⟩ : ∃ t ts, token = t :: ts := by
    cases token with
    | nil => exact absurd htok (by simp [isPySpace])
    | cons t ts => exact ⟨t, ts, rfl⟩
  obtain ⟨c, cs, rfl⟩ : ∃ c cs, comment = c :: cs := by
    cases comment with
    | nil => exact absurd hcw (by simp [isPySpace])
    | cons c cs => exact ⟨c, cs, rfl⟩
  rw [List.headD_cons] at htok hcw
  rw [List.headD_cons, List.headD_cons] at hne
  rw [scanMatch_eq_spec _ _ (by rw [List.headD_cons]; exact htok)]
  simp only [specMatchDirective, List.cons_append]
  rw [List.dropWhile_cons, if_neg (by simp [hcw])]
  have hbe : (t == c) = false := beq_eq_false_iff_ne.mpr hne
  simp [List.isPrefixOf, hbe]

/-- Claim C8: commit monotonicity. Once Pass 1 commits line `ln`, that
line on disk reads `comment ++ original`, so — under the hypothesis
`hcm` that prefixing the comment makes a line non-matching, true for any
real configuration such as the defaults `// ` and `#include` — the fresh
scan of Pass 2 never selects line `ln` again, and no Pass 2 trial
touches it. -/
theorem committed_never_retrialled (oracle : List Line → Bool)
    (comment token : Line)
    (hcm : ∀ l : Line, scanMatch token (comment ++ l) = false)
    (s : FSt) (r1 : PassResult) (s1 : FSt) (log1 : TrialLog)
    (h1 : processFile oracle comment token true s = (r1, s1, log1))
    (ln : Nat) (hln : (ln, TrialOutcome.committed) ∈ log1) :
    (∀ p ∈ scanCandidates token s1.file, p.1 ≠ ln) ∧
    (∀ (r2 : PassResult) (s2 : FSt) (log2 : TrialLog),
      processFile oracle comment token false s1 = (r2, s2, log2) →
      ∀ e ∈ log2, e.1 ≠ ln) := by
  have h1r : runTrials oracle comment ((scanCandidates token s.file).reverse)
      false s = (r1, s1, log1) := h1
  have hval : ∀ q ∈ (scanCandidates token s.file).reverse,
      1 ≤ q.1 ∧ s.file[q.1 - 1]? = some q.2 :=
    orderedCandidates_valid token s.file true
  have hpw : ((scanCandidates token s.file).reverse).Pairwise
      (fun a b => a.1 ≠ b.1) :=
    orderedCandidates_pairwise token s.file true
  have hst : (runTrials oracle comment ((scanCandidates token s.file).reverse)
      false s).2.1 = s1 := by rw [h1r]
  have hlog : (runTrials oracle comment ((scanCandidates token s.file).reverse)
      false s).2.2 = log1 := by rw [h1r]
  obtain ⟨bk, hbkL, hline⟩ :=
    runTrials_committed_line oracle comment
      ((scanCandidates token s.file).reverse) false s hval hpw ln
      (by rw [hlog]; exact hln)
  rw [hst] at hline
  have hpart1 : ∀ p ∈ scanCandidates token s1.file, p.1 ≠ ln := by
    intro p hp hpe
    obtain ⟨hp1, hp2, hp3⟩ := (scanCandidates_mem token s1.file p).mp hp
    rw [hpe, hline] at hp2
    injection hp2 with he2
    rw [← he2] at hp3
    rw [hcm bk] at hp3
    exact absurd hp3 (by simp)
  refine ⟨hpart1, ?_⟩
  intro r2 s2 log2 h2 e he
  have h2r : runTrials oracle comment (scanCandidates token s1.file) false s1 =
      (r2, s2, log2) := h2
  have hmem : e ∈ (runTrials oracle comment (scanCandidates token s1.file)
      false s1).2.2 := by rw [h2r]; exact he
  have := runTrials_log_fst_sub oracle comment (scanCandidates token s1.file)
    false s1 e hmem
  obtain ⟨p, hpmem, hpe⟩ := List.mem_map.mp this
  intro hcontra
  exact hpart1 p hpmem (by rw [hpe, hcontra])

theorem committed_never_retrialled_witness :
    ((∀ l : Line, scanMatch ['#'] (['/', '/'] ++ l) = false) ∧
      processFile (fun _ => true) ['/', '/'] ['#'] true ⟨[['#', ' ', 'a']], false⟩ =
        (PassResult.done true, ⟨[['/', '/', '#', ' ', 'a']], true⟩,
          [(1, TrialOutcome.committed)]) ∧
      ((1 : Nat), TrialOutcome.committed) ∈
        ([(1, TrialOutcome.committed)] : TrialLog)) ∧
    ∀ p ∈ scanCandidates ['#'] [['/', '/', '#', ' ', 'a']], p.1 ≠ 1 :=
  ⟨⟨fun l => scanMatch_comment_append ['#'] ['/', '/'] l (by decide) (by decide)
      (by decide), by decide, by decide⟩,
   (committed_never_retrialled (fun _ => true) ['/', '/'] ['#']
      (fun l => scanMatch_comment_append ['#'] ['/', '/'] l (by decide) (by decide)
        (by decide))
      ⟨[['#', ' ', 'a']], false⟩ (PassResult.done true)
      ⟨[['/', '/', '#', ' ', 'a']], true⟩ [(1, TrialOutcome.committed)]
      (by decide) 1 (by decide)).1⟩

/-- Claim C6: the baseline gate. If the baseline build (run after the
artifact is deleted; the `touch` of every source mtime is outside the
model and only defeats build caching) does not produce the artifact,
`main` stops at `initialize` with the `exit_error` path (non-zero exit
with a diagnostic): the result is `baselineFail`, every file's content is
unchanged, and the empty trial log shows no mutation ever happened. -/
theorem mainRun_baseline_gate (oracleP : Project → Bool) (comment token : Line)
    (s : PSt) (hne : s.files.isEmpty = false)
    (hfail : oracleP s.files = false) :
    mainRun oracleP comment token s =
      (MainResult.baselineFail, ⟨s.files, false⟩, []) := by
  simp [mainRun, setupBaseline, hne, hfail]

theorem mainRun_baseline_gate_witness :
    ((([[['x']]] : Project).isEmpty = false) ∧
      (fun _ : Project => false) [[['x']]] = false) ∧
    mainRun (fun _ => false) ['/', '/'] ['#'] ⟨[[['x']]], true⟩ =
      (MainResult.baselineFail, ⟨[[['x']]], false⟩, []) :=
  ⟨⟨by decide, by decide⟩,
   mainRun_baseline_gate (fun _ => false) ['/', '/'] ['#'] ⟨[[['x']]], true⟩
     (by decide) (by decide)⟩

/-- Claim C5: order sensitivity. With directive lines A (line 3) and B
(line 7), a build that succeeds with either line removed alone but fails
with both removed, the two-pass driver ends with exactly one of the two
removed — namely B, the one the reverse pass tries (and commits) first:
the final file is the original with only line 7 commented, A's trials
(once in each pass) both having been reverted. -/
theorem driverFile_order_sensitivity (oracle : List Line → Bool)
    (comment token : Line) (s : FSt) (a b : Line)
    (hscan : scanCandidates token s.file = [(3, a), (7, b)])
    (hA : oracle (inplaceInsert s.file 3 (comment ++ a)) = true)
    (hB : oracle (inplaceInsert s.file 7 (comment ++ b)) = true)
    (hAB : oracle (inplaceInsert (inplaceInsert s.file 7 (comment ++ b)) 3
      (comment ++ a)) = false)
    (hcm : scanMatch token (comment ++ b) = false) :
    driverFile oracle comment token s =
      (RunResult.finished, ⟨inplaceInsert s.file 7 (comment ++ b), true⟩,
        [(7, TrialOutcome.committed), (3, TrialOutcome.reverted),
         (3, TrialOutcome.reverted)]) := by
  have ha2 : s.file[2]? = some a := by
    have := (scanCandidates_mem token s.file (3, a)).mp
      (by rw [hscan]; exact List.mem_cons_self _ _)
    exact this.2.1
  have hF7a : (inplaceInsert s.file 7 (comment ++ b))[2]? = some a := by
    rw [inplaceInsert_getElem?_ne _ _ _ _ (by omega)]
    exact ha2
  have hrev : inplaceInsert (inplaceInsert (inplaceInsert s.file 7 (comment ++ b))
      3 (comment ++ a)) 3 a = inplaceInsert s.file 7 (comment ++ b) := by
    rw [inplaceInsert_inplaceInsert]
    exact inplaceInsert_restore _ _ _ hF7a
  have hp1 : pruneInclude oracle comment 7 b s =
      (TrialOutcome.committed, ⟨inplaceInsert s.file 7 (comment ++ b), true⟩) := by
    rw [pruneInclude_eq, if_pos hB]
  have hp2 : pruneInclude oracle comment 3 a
      ⟨inplaceInsert s.file 7 (comment ++ b), true⟩ =
      (TrialOutcome.reverted, ⟨inplaceInsert s.file 7 (comment ++ b), true⟩) := by
    rw [pruneInclude_eq]
    dsimp only
    rw [hrev]
    rw [if_neg (by simp [hAB]), if_pos hB]
  have hrevlit : ([(3, a), (7, b)] : List (Nat × Line)).reverse = [(7, b), (3, a)] :=
    rfl
  have hpass1 : processFile oracle comment token true s =
      (PassResult.done true, ⟨inplaceInsert s.file 7 (comment ++ b), true⟩,
       [(7, TrialOutcome.committed), (3, TrialOutcome.reverted)]) := by
    show runTrials oracle comment ((scanCandidates token s.file).reverse)
      false s = _
    rw [hscan, hrevlit]
    rw [runTrials_cons_committed hp1, runTrials_cons_reverted hp2, runTrials_nil]
    rfl
  have hscan2 : scanCandidates token (inplaceInsert s.file 7 (comment ++ b)) =
      [(3, a)] := by
    rw [scanCandidates_inplaceInsert token (comment ++ b) 7 s.file hcm, hscan]
    rfl
  have hpass2 : processFile oracle comment token false
      ⟨inplaceInsert s.file 7 (comment ++ b), true⟩ =
      (PassResult.done false, ⟨inplaceInsert s.file 7 (comment ++ b), true⟩,
       [(3, TrialOutcome.reverted)]) := by
    show runTrials oracle comment
      (scanCandidates token (inplaceInsert s.file 7 (comment ++ b))) false _ = _
    rw [hscan2]
    rw [runTrials_cons_reverted hp2, runTrials_nil]
    rfl
  unfold driverFile
  rw [hpass1]
  simp only [if_pos]
  rw [hpass2]
  rfl

theorem driverFile_order_sensitivity_witness :
    (scanCandidates ['#'] exF = [(3, ['#', ' ', 'a']), (7, ['#', ' ', 'b'])] ∧
      exOracle (inplaceInsert exF 3 (['/', '/'] ++ ['#', ' ', 'a'])) = true ∧
      exOracle (inplaceInsert exF 7 (['/', '/'] ++ ['#', ' ', 'b'])) = true ∧
      exOracle (inplaceInsert (inplaceInsert exF 7 (['/', '/'] ++ ['#', ' ', 'b']))
        3 (['/', '/'] ++ ['#', ' ', 'a'])) = false ∧
      scanMatch ['#'] (['/', '/'] ++ ['#', ' ', 'b']) = false) ∧
    driverFile exOracle ['/', '/'] ['#'] ⟨exF, false⟩ =
      (RunResult.finished,
        ⟨inplaceInsert exF 7 (['/', '/'] ++ ['#', ' ', 'b']), true⟩,
        [(7, TrialOutcome.committed), (3, TrialOutcome.reverted),
         (3, TrialOutcome.reverted)]) :=
  ⟨⟨by decide, by decide, by decide, by decide, by decide⟩,
   driverFile_order_sensitivity exOracle ['/', '/'] ['#'] ⟨exF, false⟩
     ['#', ' ', 'a'] ['#', ' ', 'b'] (by decide) (by decide) (by decide)
     (by decide) (by decide)⟩

/-! ### Lemmas towards idempotence analysis -/

lemma processFile_done_no_commit (oracle : List Line → Bool)
    (comment token : Line) (rev : Bool) (s : FSt) (wc' : Bool) (s' : FSt)
    (log : TrialLog)
    (h : processFile oracle comment token rev s = (PassResult.done wc', s', log))
    (hnc : ∀ e ∈ log, e.2 ≠ TrialOutcome.committed) :
    s'.file = s.file ∧ wc' = false := by
  have hr : runTrials oracle comment
      (if rev then (scanCandidates token s.file).reverse
       else scanCandidates token s.file) false s =
      (PassResult.done wc', s', log) := h
  have hval : ∀ q ∈ (if rev then (scanCandidates token s.file).reverse
      else scanCandidates token s.file), s.file[q.1 - 1]? = some q.2 :=
    fun q hq => (orderedCandidates_valid token s.file rev q hq).2
  obtain ⟨hf, hwc⟩ :=
    runTrials_no_commit oracle comment _ false s hval wc' s' log hr hnc
  exact ⟨hf, hwc⟩

lemma driverFile_no_commit (oracle : List Line → Bool) (comment token : Line)
    (s s1 : FSt) (log : TrialLog)
    (h : driverFile oracle comment token s = (RunResult.finished, s1, log))
    (hnc : ∀ e ∈ log, e.2 ≠ TrialOutcome.committed) :
    s1.file = s.file := by
  unfold driverFile at h
  rcases hp1 : processFile oracle comment token true s with ⟨r1, s1', log1⟩
  rw [hp1] at h
  cases r1 with
  | aborted ln => simp at h
  | done wc =>
    cases wc with
    | false =>
      simp only [Bool.false_eq_true, if_false] at h
      injection h with h1 h2
      injection h2 with h2 h3
      obtain ⟨hf, -⟩ := processFile_done_no_commit oracle comment token true s
        false s1' log1 hp1 (fun e he => hnc e (by rw [← h3]; exact he))
      rw [← h2, hf]
    | true =>
      simp only [if_true] at h
      rcases hp2 : processFile oracle comment token false s1' with ⟨r2, s2, log2⟩
      rw [hp2] at h
      cases r2 with
      | aborted ln => simp at h
      | done wc2 =>
        simp only at h
        injection h with h1 h2
        injection h2 with h2 h3
        have hnc1 : ∀ e ∈ log1, e.2 ≠ TrialOutcome.committed := by
          intro e he
          exact hnc e (by rw [← h3]; exact List.mem_append.mpr (Or.inl he))
        obtain ⟨-, hwc⟩ := processFile_done_no_commit oracle comment token true s
          true s1' log1 hp1 hnc1
        exact absurd hwc (by simp)

lemma set_getD_self {α : Type} :
    ∀ (l : List α) (i : Nat) (d : α), l.set i (l.getD i d) = l
  | [], _, _ => rfl
  | _ :: _, 0, _ => rfl
  | a :: l, i + 1, d => by
    show a :: l.set i ((a :: l).getD (i + 1) d) = a :: l
    rw [show (a :: l).getD (i + 1) d = l.getD i d from rfl]
    rw [set_getD_self l i d]

lemma processAll_cons_aborted {oracleP : Project → Bool} {comment token : Line}
    {fi : Nat} {rest : List Nat} {s : PSt} {ln : Nat} {s1 : FSt} {log1 : TrialLog}
    (hd : driverFile (oracleFor oracleP s.files fi) comment token
      ⟨s.files.getD fi [], s.artifact⟩ = (RunResult.aborted ln, s1, log1)) :
    processAll oracleP comment token (fi :: rest) s =
      (MainResult.aborted fi ln, ⟨s.files.set fi s1.file, s1.artifact⟩,
        log1.map (fun e => (fi, e))) := by
  rw [processAll, hd]

lemma processAll_cons_finished {oracleP : Project → Bool} {comment token : Line}
    {fi : Nat} {rest : List Nat} {s : PSt} {s1 : FSt} {log1 : TrialLog}
    (hd : driverFile (oracleFor oracleP s.files fi) comment token
      ⟨s.files.getD fi [], s.artifact⟩ = (RunResult.finished, s1, log1)) :
    processAll oracleP comment token (fi :: rest) s =
      ((processAll oracleP comment token rest
          ⟨s.files.set fi s1.file, s1.artifact⟩).1,
       (processAll oracleP comment token rest
          ⟨s.files.set fi s1.file, s1.artifact⟩).2.1,
       log1.map (fun e => (fi, e)) ++
         (processAll oracleP comment token rest
            ⟨s.files.set fi s1.file, s1.artifact⟩).2.2) := by
  rw [processAll, hd]

lemma processAll_no_commit (oracleP : Project → Bool) (comment token : Line) :
    ∀ (fis : List Nat) (s s' : PSt) (log : RunLog),
      processAll oracleP comment token fis s = (MainResult.success, s', log) →
      (∀ e ∈ log, e.2.2 ≠ TrialOutcome.committed) →
      s'.files = s.files := by
  intro fis
  induction fis with
  | nil =>
    intro s s' log h hnc
    injection h with h1 h2
    injection h2 with h2 h3
    rw [← h2]
  | cons fi rest ih =>
    intro s s' log h hnc
    rcases hd : driverFile (oracleFor oracleP s.files fi) comment token
      ⟨s.files.getD fi [], s.artifact⟩ with ⟨rr, s1, log1⟩
    cases rr with
    | aborted ln =>
      rw [processAll_cons_aborted hd] at h
      injection h with h1 h2
      exact absurd h1 (by simp)
    | finished =>
      rw [processAll_cons_finished hd] at h
      rcases hr : processAll oracleP comment token rest
        ⟨s.files.set fi s1.file, s1.artifact⟩ with ⟨mr, s2, log2⟩
      rw [hr] at h
      dsimp only at h
      injection h with h1 h2
      injection h2 with h2 h3
      rw [h1] at hr
      have hnc2 : ∀ e ∈ log2, e.2.2 ≠ TrialOutcome.committed :=
        fun e he => hnc e (by rw [← h3]; exact List.mem_append.mpr (Or.inr he))
      have hnc1 : ∀ e ∈ log1, e.2 ≠ TrialOutcome.committed := by
        intro e he
        have : ((fi, e) : Nat × Nat × TrialOutcome) ∈ log := by
          rw [← h3]
          exact List.mem_append.mpr (Or.inl (List.mem_map.mpr ⟨e, he, rfl⟩))
        exact hnc (fi, e) this
      have hfi : s1.file = s.files.getD fi [] :=
        driverFile_no_commit (oracleFor oracleP s.files fi) comment token
          ⟨s.files.getD fi [], s.artifact⟩ s1 log1 hd hnc1
      have hrec := ih ⟨s.files.set fi s1.file, s1.artifact⟩ s2 log2 hr hnc2
      rw [← h2, hrec]
      dsimp only
      rw [hfi, set_getD_self]

/-- If a whole run finishes successfully and commits nothing, the project
is unchanged and the run reduced to `processAll` from the post-baseline
state. -/
lemma mainRun_success_shape (oracleP : Project → Bool) (comment token : Line)
    (s : PSt) (s1 : PSt) (log : RunLog)
    (h : mainRun oracleP comment token s = (MainResult.success, s1, log)) :
    s.files.isEmpty = false ∧ oracleP s.files = true ∧
    processAll oracleP comment token (List.range s.files.length)
      ⟨s.files, true⟩ = (MainResult.success, s1, log) := by
  unfold mainRun setupBaseline at h
  by_cases hemp : s.files.isEmpty
  · rw [if_pos hemp] at h
    injection h with h1 h2
    exact absurd h1 (by simp)
  · rw [if_neg hemp] at h
    dsimp only at h
    rw [Bool.false_or] at h
    by_cases hor : oracleP s.files
    · rw [if_pos hor] at h
      refine ⟨by simp [hemp], hor, ?_⟩
      rw [← h]
      rw [hor]
    · rw [if_neg hor] at h
      injection h with h1 h2
      exact absurd h1 (by simp)

/-- Claim C9 counterexample: the pipeline is not idempotent. On the
concrete three-directive project `[c9F0]` with the pure builder
`c9Oracle`, the first run succeeds and leaves lines B and C commented
(its forward pass commits C last); the second run then finds line A
removable — `ok({A,B,C})` holds even though `ok({A,B})` does not — and
commits a further removal, changing the project again. Its reverse pass
therefore does not yield zero commits. -/
theorem mainRun_not_idempotent :
    c9Run1.1 = MainResult.success ∧
    c9Run1.2.1.files = [c9FBC] ∧
    c9Run2.1 = MainResult.success ∧
    c9Run2.2.2.any (fun e => decide (e.2.2 = TrialOutcome.committed)) = true ∧
    c9Run2.2.1.files ≠ c9Run1.2.1.files := by
  refine ⟨by decide, by decide, by decide, by decide, by decide⟩

/-- Claim C9, amended: running the pipeline a second time commits no
further removals provided the first run itself committed none — then
every file is byte-identical after the first run, the second run repeats
exactly the same reverted trials (each file's reverse pass yields zero
commits, so each forward pass is skipped), and it returns the very same
result. Without that proviso the claim fails: a commit made late in a
forward pass can make an earlier-trialled line removable, as
`c9Oracle` shows. -/
theorem mainRun_idempotent_of_no_commits (oracleP : Project → Bool)
    (comment token : Line) (s s1 : PSt) (log : RunLog)
    (h : mainRun oracleP comment token s = (MainResult.success, s1, log))
    (hnc : ∀ e ∈ log, e.2.2 ≠ TrialOutcome.committed) :
    s1.files = s.files ∧
    mainRun oracleP comment token s1 = (MainResult.success, s1, log) := by
  obtain ⟨hemp, hor, hpa⟩ := mainRun_success_shape oracleP comment token s s1 log h
  have hfiles : s1.files = s.files := by
    have := processAll_no_commit oracleP comment token
      (List.range s.files.length) ⟨s.files, true⟩ s1 log hpa hnc
    exact this
  refine ⟨hfiles, ?_⟩
  unfold mainRun setupBaseline
  rw [hfiles]
  rw [if_neg (by simp [hemp])]
  dsimp only
  rw [Bool.false_or, hor]
  simp only [if_true]
  exact hpa

theorem mainRun_idempotent_of_no_commits_witness :
    (mainRun (fun P => decide (P = [[['#', ' ', 'a']]])) ['/', '/'] ['#']
        ⟨[[['#', ' ', 'a']]], false⟩ =
      (MainResult.success, ⟨[[['#', ' ', 'a']]], true⟩,
        [(0, 1, TrialOutcome.reverted)]) ∧
      ∀ e ∈ ([(0, 1, TrialOutcome.reverted)] : RunLog),
        e.2.2 ≠ TrialOutcome.committed) ∧
    ((⟨[[['#', ' ', 'a']]], true⟩ : PSt).files =
        (⟨[[['#', ' ', 'a']]], false⟩ : PSt).files ∧
      mainRun (fun P => decide (P = [[['#', ' ', 'a']]])) ['/', '/'] ['#']
        ⟨[[['#', ' ', 'a']]], true⟩ =
      (MainResult.success, ⟨[[['#', ' ', 'a']]], true⟩,
        [(0, 1, TrialOutcome.reverted)])) :=
  ⟨⟨by decide, by decide⟩,
   mainRun_idempotent_of_no_commits (fun P => decide (P = [[['#', ' ', 'a']]]))
     ['/', '/'] ['#'] ⟨[[['#', ' ', 'a']]], false⟩ ⟨[[['#', ' ', 'a']]], true⟩
     [(0, 1, TrialOutcome.reverted)] (by decide) (by decide)⟩

end PruneIncl
